import Mathlib

set_option maxHeartbeats 1000000

/-!
Verification of the order-allocation algorithm of the bet-etf repository
(`DashApplication.calculate_orders` in docker-compose/dash_application.py).

The Python code is shallowly embedded over exact rationals.  Every place where
Python would raise ZeroDivisionError (or StopIteration) is modelled by an
`Option` result: `none` stands for a raised exception.  Symbol keys are plain
ordered identifiers, modelled by naturals; the extra data of a record (company,
volume, ...) that the algorithm never reads or writes is modelled by one
`extra` field.
-/

/-- One entry of the symbols list: the keys of the Python dictionaries that
`calculate_orders` reads or writes, plus `extra` standing for all other keys. -/
structure SymbolRec where
  symbol : ℕ
  weight : ℚ
  buy_price : ℚ
  current_quantity : ℚ
  buy_quantity : ℤ
  order_value : ℚ
  extra : ℕ
deriving DecidableEq

/-- The orders dictionary: symbol key to allocated cash, in insertion order,
with the Python dict update-in-place semantics. -/
abbrev Dict := List (ℕ × ℚ)

/-- Python dict assignment d[k] = v: update in place if the key exists,
append otherwise. -/
def dictSet (d : Dict) (k : ℕ) (v : ℚ) : Dict :=
  if d.any (fun p => p.1 == k) then d.map (fun p => if p.1 == k then (k, v) else p)
  else d ++ [(k, v)]

/-- Python sum(d.values()). -/
def dictSum (d : Dict) : ℚ := (d.map (fun p => p.2)).sum

/-- Python d.get(k, 0). -/
def dictGet (d : Dict) (k : ℕ) : ℚ :=
  ((d.find? (fun p => p.1 == k)).map (fun p => p.2)).getD 0

/-- Python d.pop(k, 0): the value (default 0) and the dictionary without k. -/
def dictPop (d : Dict) (k : ℕ) : ℚ × Dict :=
  match d.find? (fun p => p.1 == k) with
  | some p => (p.2, d.eraseP (fun q => q.1 == k))
  | none => (0, d)

/-- Round to the nearest integer with ties to even, as the Python builtin. -/
def roundHalfEven (x : ℚ) : ℤ :=
  if Int.fract x < 1/2 then ⌊x⌋
  else if 1/2 < Int.fract x then ⌊x⌋ + 1
  else if 2 ∣ ⌊x⌋ then ⌊x⌋ else ⌊x⌋ + 1

/-- Python round(x, 2). -/
def pyRound2 (x : ℚ) : ℚ := (roundHalfEven (x * 100) : ℚ) / 100

/-- The module constant MINIMUM_ORDER_VALUE. -/
def MINIMUM_ORDER_VALUE : ℚ := 270

/-- Step 1: net investable cash, invest_amount * (1 - transaction_fee). -/
def netAmount (invest fee : ℚ) : ℚ := invest * (1 - fee)

/-- Step 2: current portfolio value. -/
def actualPortfolio (l : List SymbolRec) : ℚ :=
  (l.map (fun s => s.buy_price * s.current_quantity)).sum

/-- Sum of the weights over the tracked set. -/
def weightSum (l : List SymbolRec) : ℚ := (l.map (fun s => s.weight)).sum

/-- The first loop of calculate_orders: rescale every weight in place and
collect the positive target gaps into the orders dictionary, in list order. -/
def firstPass (target scale : ℚ) : List SymbolRec → Dict → List SymbolRec × Dict
  | [], orders => ([], orders)
  | s :: rest, orders =>
    let s' := { s with weight := s.weight * scale }
    let difference := target * s'.weight - s'.buy_price * s'.current_quantity
    let orders' := if 0 < difference then dictSet orders s'.symbol difference else orders
    let out := firstPass target scale rest orders'
    (s' :: out.1, out.2)

/-- The rescaled records and the gap dictionary produced by the first loop. -/
def step4 (symbols : List SymbolRec) (invest fee : ℚ) : List SymbolRec × Dict :=
  firstPass (actualPortfolio symbols + netAmount invest fee) (1 / weightSum symbols)
    symbols []

/-- Python next(s.get('weight', 0) for s in symbols_list if s.get('symbol') == k):
the weight of the first record with the given key, none when the generator is
exhausted (StopIteration). -/
def weightOf (l : List SymbolRec) (k : ℕ) : Option ℚ :=
  (l.find? (fun s => s.symbol == k)).map (fun s => s.weight)

/-- The branch taken when the gaps do not consume the whole budget: add
extra * weight * scale_factor to every candidate. -/
def distributeExtra (l : List SymbolRec) (extra scale : ℚ) : Dict → Option Dict
  | [] => some []
  | p :: rest => do
    let w ← weightOf l p.1
    let rest' ← distributeExtra l extra scale rest
    pure ((p.1, p.2 + extra * w * scale) :: rest')

/-- Steps 1 to 4 of calculate_orders: everything before the settlement pass.
Returns the weight-rescaled records and the pre-settlement orders dictionary;
`none` models a raised ZeroDivisionError (weight sum zero, or a zero gap total
reached in the scaling branch). -/
def prepare (symbols : List SymbolRec) (invest fee : ℚ) :
    Option (List SymbolRec × Dict) :=
  if weightSum symbols = 0 then none
  else
    let net := netAmount invest fee
    let scale := 1 / weightSum symbols
    let sd := step4 symbols invest fee
    let total := dictSum sd.2
    if total < net then
      (distributeExtra sd.1 (net - total) scale sd.2).map (fun o => (sd.1, o))
    else if total = 0 then none
    else some (sd.1, sd.2.map (fun p => (p.1, p.2 * (net / total))))

/-- The pre-settlement orders dictionary (the order_cash values at the end of
Step 4, before the greedy settlement pass). -/
def presettleOrders (symbols : List SymbolRec) (invest fee : ℚ) : Option Dict :=
  (prepare symbols invest fee).map (fun p => p.2)

/-- Sort key for the settlement heap: descending buy price. -/
def priceGe (a b : SymbolRec) : Prop := b.buy_price ≤ a.buy_price

/-- Sort key for the final output: ascending symbol. -/
def symbolLe (a b : SymbolRec) : Prop := a.symbol ≤ b.symbol

instance : DecidableRel priceGe :=
  fun a b => inferInstanceAs (Decidable (b.buy_price ≤ a.buy_price))

instance : DecidableRel symbolLe :=
  fun a b => inferInstanceAs (Decidable (a.symbol ≤ b.symbol))

instance : IsTotal SymbolRec priceGe := ⟨fun a b => le_total b.buy_price a.buy_price⟩

instance : IsTrans SymbolRec priceGe := ⟨fun _ _ _ h h' => le_trans h' h⟩

instance : IsTotal SymbolRec symbolLe := ⟨fun a b => Nat.le_total a.symbol b.symbol⟩

instance : IsTrans SymbolRec symbolLe := ⟨fun _ _ _ h h' => Nat.le_trans h h'⟩

/-- Python sorted(symbols_list, key=buy_price, reverse=True): stable sort,
descending by price. -/
def heapSort (l : List SymbolRec) : List SymbolRec := l.insertionSort priceGe

/-- Python sorted(symbols_list, key=symbol): stable sort, ascending by key. -/
def symbolSort (l : List SymbolRec) : List SymbolRec := l.insertionSort symbolLe

/-- The record update at the end of each settlement step: write buy_quantity
and order_value into the first record with the given key (for-loop with break). -/
def updateFirst : List SymbolRec → ℕ → ℤ → ℚ → List SymbolRec
  | [], _, _, _ => []
  | r :: rest, k, q, ov =>
    if r.symbol == k then { r with buy_quantity := q, order_value := ov } :: rest
    else r :: updateFirst rest k q ov

/-- The quantity written by one settlement step: floor(value / price), zeroed
by the minimum-order-value cutoff. -/
def stepQty (value price : ℚ) : ℤ :=
  if ((⌊value / price⌋ : ℤ) : ℚ) * price ≤ MINIMUM_ORDER_VALUE then 0 else ⌊value / price⌋

/-- The raw (pre-fee) order value of one settlement step: quantity times
price, zeroed by the minimum-order-value cutoff. -/
def stepRaw (value price : ℚ) : ℚ :=
  if ((⌊value / price⌋ : ℤ) : ℚ) * price ≤ MINIMUM_ORDER_VALUE then 0
  else ((⌊value / price⌋ : ℤ) : ℚ) * price

/-- The greedy settlement pass (Step 5), heap already sorted by descending
price; `none` models the ZeroDivisionError raised when a settled symbol has
buy_price 0. -/
def settle (fee : ℚ) : List SymbolRec → Dict → List SymbolRec → Option (List SymbolRec)
  | [], _, records => some records
  | h :: rest, orders, records =>
    let pv := dictPop orders h.symbol
    if h.buy_price = 0 then none
    else
      let raw := stepRaw pv.1 h.buy_price
      let orders₂ := pv.2.map (fun p => (p.1, p.2 + (pv.1 - raw) / (pv.2.length : ℚ)))
      settle fee rest orders₂
        (updateFirst records h.symbol (stepQty pv.1 h.buy_price) (pyRound2 (raw * (1 + fee))))

/-- One line of the settlement trace: the settled key, its price, the cash
allocated to it at its settlement step, and the quantity and (fee-inclusive,
rounded) order value written for it. -/
structure TraceEntry where
  sym : ℕ
  price : ℚ
  value : ℚ
  q : ℤ
  ov : ℚ
deriving DecidableEq

/-- The settlement pass instrumented with its trace: same computation as
`settle`, additionally recording, per settled symbol, the allocated cash and
the written fields. -/
def settleI (fee : ℚ) : List SymbolRec → Dict → List SymbolRec →
    Option (List SymbolRec × List TraceEntry)
  | [], _, records => some (records, [])
  | h :: rest, orders, records =>
    let pv := dictPop orders h.symbol
    if h.buy_price = 0 then none
    else
      let q := stepQty pv.1 h.buy_price
      let raw := stepRaw pv.1 h.buy_price
      let orders₂ := pv.2.map (fun p => (p.1, p.2 + (pv.1 - raw) / (pv.2.length : ℚ)))
      let ov := pyRound2 (raw * (1 + fee))
      (settleI fee rest orders₂ (updateFirst records h.symbol q ov)).map
        (fun out => (out.1, ⟨h.symbol, h.buy_price, pv.1, q, ov⟩ :: out.2))

/-- DashApplication.calculate_orders: the full allocation.  `none` models a
raised exception (ZeroDivisionError). -/
def calculate_orders (symbols : List SymbolRec) (invest fee : ℚ) :
    Option (List SymbolRec) :=
  match prepare symbols invest fee with
  | none => none
  | some sd => (settle fee (heapSort sd.1) sd.2 sd.1).map symbolSort

/-- calculate_orders instrumented with the settlement trace. -/
def calculate_ordersI (symbols : List SymbolRec) (invest fee : ℚ) :
    Option (List SymbolRec × List TraceEntry) :=
  match prepare symbols invest fee with
  | none => none
  | some sd => (settleI fee (heapSort sd.1) sd.2 sd.1).map (fun p => (symbolSort p.1, p.2))

/-- The per-symbol postcondition of one settlement step: the written quantity
and order value are exactly those the step function computes from the
allocated cash and the price. -/
def entryOk (fee : ℚ) (e : TraceEntry) : Prop :=
  e.q = stepQty e.value e.price ∧ e.ov = pyRound2 (stepRaw e.value e.price * (1 + fee))

/-- Apply the settlement trace to one record: write the traced quantity and
order value of its key, if any. -/
def applyTrace (tr : List TraceEntry) (r : SymbolRec) : SymbolRec :=
  match tr.find? (fun e => e.sym == r.symbol) with
  | some e => { r with buy_quantity := e.q, order_value := e.ov }
  | none => r

section RoundLemmas

theorem fract_eq (x : ℚ) : Int.fract x = x - ⌊x⌋ := rfl

theorem roundHalfEven_le (x : ℚ) : (roundHalfEven x : ℚ) ≤ x + 1/2 := by
  have hfl : (⌊x⌋ : ℚ) = x - Int.fract x := by rw [fract_eq]; ring
  by_cases h1 : Int.fract x < 1/2
  · rw [roundHalfEven, if_pos h1]
    exact le_trans (Int.floor_le x) (by linarith)
  · rw [roundHalfEven, if_neg h1]
    have hge : 1/2 ≤ Int.fract x := le_of_not_lt h1
    have hb : (⌊x⌋ : ℚ) + 1 ≤ x + 1/2 := by rw [hfl]; linarith
    by_cases h2 : 1/2 < Int.fract x
    · rw [if_pos h2]; push_cast; linarith
    · rw [if_neg h2]
      by_cases h3 : 2 ∣ ⌊x⌋
      · rw [if_pos h3]; exact le_trans (Int.floor_le x) (by linarith)
      · rw [if_neg h3]; push_cast; linarith

theorem roundHalfEven_nonneg (x : ℚ) (hx : 0 ≤ x) : 0 ≤ (roundHalfEven x : ℚ) := by
  have h0 : (0 : ℚ) ≤ (⌊x⌋ : ℚ) := by
    have := Int.floor_nonneg.mpr hx
    exact_mod_cast this
  by_cases h1 : Int.fract x < 1/2
  · rw [roundHalfEven, if_pos h1]; exact h0
  · rw [roundHalfEven, if_neg h1]
    by_cases h2 : 1/2 < Int.fract x
    · rw [if_pos h2]; push_cast; linarith
    · rw [if_neg h2]
      by_cases h3 : 2 ∣ ⌊x⌋
      · rw [if_pos h3]; exact h0
      · rw [if_neg h3]; push_cast; linarith

theorem pyRound2_le (x : ℚ) : pyRound2 x ≤ x + 1/200 := by
  unfold pyRound2
  have h := roundHalfEven_le (x * 100)
  rw [div_le_iff₀ (by norm_num : (0:ℚ) < 100)]
  linarith

theorem pyRound2_nonneg (x : ℚ) (hx : 0 ≤ x) : 0 ≤ pyRound2 x := by
  unfold pyRound2
  have h := roundHalfEven_nonneg (x * 100) (by positivity)
  positivity

theorem pyRound2_zero : pyRound2 0 = 0 := by
  norm_num [pyRound2, roundHalfEven, Int.fract]

end RoundLemmas

section FloorLemmas

theorem floor_raw_le (v p : ℚ) (hp : 0 < p) : ((⌊v / p⌋ : ℤ) : ℚ) * p ≤ v := by
  have h := Int.floor_le (v / p)
  calc ((⌊v / p⌋ : ℤ) : ℚ) * p ≤ (v / p) * p :=
        mul_le_mul_of_nonneg_right h (le_of_lt hp)
    _ = v := div_mul_cancel₀ v (ne_of_gt hp)

theorem floor_raw_nonneg (v p : ℚ) (hv : 0 ≤ v) (hp : 0 < p) :
    0 ≤ ((⌊v / p⌋ : ℤ) : ℚ) * p := by
  have h : (0 : ℤ) ≤ ⌊v / p⌋ := Int.floor_nonneg.mpr (div_nonneg hv (le_of_lt hp))
  have : (0 : ℚ) ≤ (⌊v / p⌋ : ℚ) := by exact_mod_cast h
  positivity

theorem floor_nonneg_rat (v p : ℚ) (hv : 0 ≤ v) (hp : 0 < p) : 0 ≤ ⌊v / p⌋ :=
  Int.floor_nonneg.mpr (div_nonneg hv (le_of_lt hp))

end FloorLemmas

section DictLemmas

theorem dictSet_nonneg (d : Dict) (k : ℕ) (v : ℚ)
    (hd : ∀ p ∈ d, 0 ≤ p.2) (hv : 0 ≤ v) :
    ∀ p ∈ dictSet d k v, 0 ≤ p.2 := by
  intro p hp
  unfold dictSet at hp
  split at hp
  · obtain ⟨q, hq, hpq⟩ := List.mem_map.mp hp
    by_cases h : q.1 == k
    · simp only [h, if_true] at hpq
      subst hpq; exact hv
    · simp only [h] at hpq
      simp only [Bool.false_eq_true, if_false] at hpq
      subst hpq; exact hd q hq
  · rcases List.mem_append.mp hp with h | h
    · exact hd p h
    · simp only [List.mem_singleton] at h
      subst h; exact hv

theorem dictSum_scale (d : Dict) (c : ℚ) :
    dictSum (d.map (fun p => (p.1, p.2 * c))) = dictSum d * c := by
  unfold dictSum
  induction d with
  | nil => simp
  | cons p rest ih =>
    simp only [List.map_cons, List.sum_cons]
    rw [ih]
    ring

theorem dictSum_nonneg (d : Dict) (hd : ∀ p ∈ d, 0 ≤ p.2) : 0 ≤ dictSum d := by
  unfold dictSum
  apply List.sum_nonneg
  intro x hx
  obtain ⟨q, hq, hxq⟩ := List.mem_map.mp hx
  subst hxq; exact hd q hq

theorem dictPop_fst_nonneg (d : Dict) (k : ℕ) (hd : ∀ p ∈ d, 0 ≤ p.2) :
    0 ≤ (dictPop d k).1 := by
  unfold dictPop
  split
  · next p hp => exact hd p (List.mem_of_find?_eq_some hp)
  · norm_num

theorem dictPop_snd_subset (d : Dict) (k : ℕ) :
    ∀ p ∈ (dictPop d k).2, p ∈ d := by
  intro p hp
  unfold dictPop at hp
  split at hp
  · exact (List.eraseP_sublist d).subset hp
  · exact hp

end DictLemmas

section PrepareLemmas

theorem firstPass_records (target scale : ℚ) (l : List SymbolRec) (acc : Dict) :
    (firstPass target scale l acc).1 =
      l.map (fun s => { s with weight := s.weight * scale }) := by
  induction l generalizing acc with
  | nil => simp [firstPass]
  | cons s rest ih => simp only [firstPass, List.map_cons, ih]

theorem firstPass_orders_nonneg (target scale : ℚ) (l : List SymbolRec) (acc : Dict)
    (hacc : ∀ p ∈ acc, 0 ≤ p.2) :
    ∀ p ∈ (firstPass target scale l acc).2, 0 ≤ p.2 := by
  induction l generalizing acc with
  | nil => simpa [firstPass] using hacc
  | cons s rest ih =>
    simp only [firstPass]
    apply ih
    intro p hp
    split at hp
    · next h => exact dictSet_nonneg _ _ _ hacc (le_of_lt h) p hp
    · exact hacc p hp

theorem weightOf_nonneg (l : List SymbolRec) (k : ℕ) (w : ℚ)
    (hl : ∀ s ∈ l, 0 ≤ s.weight) (h : weightOf l k = some w) : 0 ≤ w := by
  unfold weightOf at h
  obtain ⟨s, hs, hw⟩ := Option.map_eq_some'.mp h
  subst hw
  exact hl s (List.mem_of_find?_eq_some hs)

theorem distributeExtra_nonneg (l : List SymbolRec) (extra scale : ℚ) (d : Dict)
    (hl : ∀ s ∈ l, 0 ≤ s.weight) (he : 0 ≤ extra) (hs : 0 ≤ scale) :
    ∀ d' : Dict, (∀ p ∈ d, 0 ≤ p.2) → distributeExtra l extra scale d = some d' →
      ∀ p ∈ d', 0 ≤ p.2 := by
  induction d with
  | nil =>
    intro d' _ h
    simp only [distributeExtra] at h
    obtain rfl : ([] : Dict) = d' := Option.some.inj h
    intro p hp
    exact absurd hp (List.not_mem_nil p)
  | cons p rest ih =>
    intro d' hd h
    simp only [distributeExtra, Option.bind_eq_bind, Option.bind_eq_some] at h
    obtain ⟨w, hw, h⟩ := h
    obtain ⟨rest', hrest', h⟩ := h
    obtain rfl : (p.1, p.2 + extra * w * scale) :: rest' = d' := Option.some.inj h
    intro q hq
    rcases List.mem_cons.mp hq with rfl | hq
    · have hw0 : 0 ≤ w := weightOf_nonneg l p.1 w hl hw
      have hp0 : 0 ≤ p.2 := hd p (List.mem_cons_self p rest)
      have : 0 ≤ extra * w * scale := by positivity
      simpa using add_nonneg hp0 this
    · exact ih rest' (fun r hr => hd r (List.mem_cons_of_mem p hr)) hrest' q hq

theorem weightSum_pos (symbols : List SymbolRec)
    (hw : ∀ r ∈ symbols, 0 ≤ r.weight) (hne : weightSum symbols ≠ 0) :
    0 < weightSum symbols := by
  rcases lt_or_eq_of_le (List.sum_nonneg (by
    intro x hx
    obtain ⟨r, hr, hxr⟩ := List.mem_map.mp hx
    subst hxr
    exact hw r hr)) with h | h
  · exact h
  · exact absurd h.symm hne

theorem prepare_fst (symbols : List SymbolRec) (invest fee : ℚ)
    (sd : List SymbolRec × Dict) (h : prepare symbols invest fee = some sd) :
    sd.1 = symbols.map (fun s => { s with weight := s.weight * (1 / weightSum symbols) }) := by
  unfold prepare at h
  split at h
  · exact absurd h (by simp)
  · simp only [step4] at h
    split at h
    · obtain ⟨o, _, rfl⟩ := Option.map_eq_some'.mp h
      exact firstPass_records _ _ _ _
    · split at h
      · exact absurd h (by simp)
      · obtain rfl := (Option.some.inj h).symm
        exact firstPass_records _ _ _ _

theorem prepare_snd_nonneg (symbols : List SymbolRec) (invest fee : ℚ)
    (sd : List SymbolRec × Dict)
    (hi : 0 ≤ invest) (hf0 : 0 ≤ fee) (hf1 : fee ≤ 1)
    (hw : ∀ r ∈ symbols, 0 ≤ r.weight)
    (h : prepare symbols invest fee = some sd) :
    ∀ p ∈ sd.2, 0 ≤ p.2 := by
  have hnet : 0 ≤ netAmount invest fee := by
    unfold netAmount
    have : 0 ≤ 1 - fee := by linarith
    positivity
  unfold prepare at h
  split at h
  · exact absurd h (by simp)
  · next hwne =>
    have hscale : 0 ≤ 1 / weightSum symbols := by
      have := weightSum_pos symbols hw hwne
      positivity
    have hords : ∀ p ∈ (step4 symbols invest fee).2, 0 ≤ p.2 := by
      unfold step4
      exact firstPass_orders_nonneg _ _ _ [] (by intro p hp; exact absurd hp (List.not_mem_nil p))
    have hrecw : ∀ s ∈ (step4 symbols invest fee).1, 0 ≤ s.weight := by
      unfold step4
      rw [firstPass_records]
      intro s hs
      obtain ⟨r, hr, hrs⟩ := List.mem_map.mp hs
      subst hrs
      have := hw r hr
      simpa using mul_nonneg this hscale
    simp only [step4] at h
    split at h
    · next hlt =>
      obtain ⟨o, hde, rfl⟩ := Option.map_eq_some'.mp h
      exact distributeExtra_nonneg _ _ _ _ hrecw (by linarith) hscale o hords hde
    · split at h
      · exact absurd h (by simp)
      · next hlt h0 =>
        obtain rfl := (Option.some.inj h).symm
        intro p hp
        obtain ⟨q, hq, hpq⟩ := List.mem_map.mp hp
        subst hpq
        have htot : 0 ≤ dictSum (step4 symbols invest fee).2 := dictSum_nonneg _ hords
        have : 0 ≤ netAmount invest fee / dictSum (step4 symbols invest fee).2 :=
          div_nonneg hnet htot
        simpa [step4, one_div] using mul_nonneg (hords q hq) this

end PrepareLemmas

section StepLemmas

theorem stepRaw_le (v p : ℚ) (hv : 0 ≤ v) (hp : 0 < p) : stepRaw v p ≤ v := by
  unfold stepRaw
  split
  · exact hv
  · exact floor_raw_le v p hp

theorem stepRaw_nonneg (v p : ℚ) (hv : 0 ≤ v) (hp : 0 < p) : 0 ≤ stepRaw v p := by
  unfold stepRaw
  split
  · exact le_refl 0
  · exact floor_raw_nonneg v p hv hp

theorem stepQty_nonneg (v p : ℚ) (hv : 0 ≤ v) (hp : 0 < p) : 0 ≤ stepQty v p := by
  unfold stepQty
  split
  · exact le_refl 0
  · exact floor_nonneg_rat v p hv hp

theorem stepRaw_eq_qty (v p : ℚ) : stepRaw v p = ((stepQty v p : ℤ) : ℚ) * p := by
  unfold stepRaw stepQty
  split
  · norm_num
  · rfl

theorem stepQty_zero_or (v p : ℚ) :
    (stepQty v p = 0 ∧ stepRaw v p = 0) ∨
      (stepQty v p = ⌊v / p⌋ ∧ MINIMUM_ORDER_VALUE < stepRaw v p) := by
  by_cases h : ((⌊v / p⌋ : ℤ) : ℚ) * p ≤ MINIMUM_ORDER_VALUE
  · left
    constructor
    · rw [stepQty, if_pos h]
    · rw [stepRaw, if_pos h]
  · right
    constructor
    · rw [stepQty, if_neg h]
    · rw [stepRaw, if_neg h]
      exact lt_of_not_le h

end StepLemmas

section SettleLemmas

theorem updateFirst_map {α : Type} (f : SymbolRec → α)
    (hf : ∀ r q ov, f { r with buy_quantity := q, order_value := ov } = f r)
    (l : List SymbolRec) (k : ℕ) (q : ℤ) (ov : ℚ) :
    (updateFirst l k q ov).map f = l.map f := by
  induction l with
  | nil => rfl
  | cons r rest ih =>
    rw [updateFirst]
    split
    · simp only [List.map_cons, hf]
    · simp only [List.map_cons, ih]

theorem map_update_id (l : List SymbolRec) (k : ℕ) (q : ℤ) (ov : ℚ)
    (h : ∀ r ∈ l, r.symbol ≠ k) :
    l.map (fun r => if r.symbol = k then { r with buy_quantity := q, order_value := ov } else r)
      = l := by
  rw [List.map_congr_left (fun r hr => if_neg (h r hr))]
  exact List.map_id' l

theorem updateFirst_eq_map (l : List SymbolRec) (k : ℕ) (q : ℤ) (ov : ℚ)
    (hnd : (l.map (fun r => r.symbol)).Nodup) :
    updateFirst l k q ov =
      l.map (fun r =>
        if r.symbol = k then { r with buy_quantity := q, order_value := ov } else r) := by
  induction l with
  | nil => rfl
  | cons r rest ih =>
    simp only [List.map_cons, List.nodup_cons] at hnd
    rw [updateFirst]
    by_cases hr : r.symbol = k
    · rw [if_pos (by simpa using hr), List.map_cons, if_pos hr]
      rw [map_update_id rest k q ov]
      intro r' hr'
      intro hrk
      exact hnd.1 (List.mem_map.mpr ⟨r', hr', by rw [hrk, hr]⟩)
    · rw [if_neg (by simpa using hr), List.map_cons, if_neg hr, ih hnd.2]

theorem settle_eq_settleI (fee : ℚ) (heap : List SymbolRec) :
    ∀ (orders : Dict) (records : List SymbolRec),
      settle fee heap orders records = (settleI fee heap orders records).map (fun p => p.1) := by
  induction heap with
  | nil => intro orders records; rfl
  | cons s rest ih =>
    intro orders records
    simp only [settle, settleI]
    split
    · rfl
    · rw [ih, Option.map_map]
      rfl

theorem settleI_trace_pairs (fee : ℚ) (heap : List SymbolRec) :
    ∀ (orders : Dict) (records out : List SymbolRec) (tr : List TraceEntry),
      settleI fee heap orders records = some (out, tr) →
      tr.map (fun e => (e.sym, e.price)) = heap.map (fun s => (s.symbol, s.buy_price)) := by
  induction heap with
  | nil =>
    intro orders records out tr h
    obtain ⟨-, rfl⟩ := Prod.mk.injEq .. ▸ Option.some.inj h
    rfl
  | cons s rest ih =>
    intro orders records out tr h
    rw [settleI] at h
    split at h
    · exact absurd h (by simp)
    · obtain ⟨pr, hpr, heq⟩ := Option.map_eq_some'.mp h
      injection heq with h1 h2
      subst h1; subst h2
      simp only [List.map_cons]
      rw [ih _ _ _ _ hpr]

theorem settleI_entryOk (fee : ℚ) (heap : List SymbolRec) :
    ∀ (orders : Dict) (records out : List SymbolRec) (tr : List TraceEntry),
      settleI fee heap orders records = some (out, tr) →
      ∀ e ∈ tr, entryOk fee e := by
  induction heap with
  | nil =>
    intro orders records out tr h
    obtain ⟨-, rfl⟩ := Prod.mk.injEq .. ▸ Option.some.inj h
    intro e he
    exact absurd he (List.not_mem_nil e)
  | cons s rest ih =>
    intro orders records out tr h
    rw [settleI] at h
    split at h
    · exact absurd h (by simp)
    · obtain ⟨pr, hpr, heq⟩ := Option.map_eq_some'.mp h
      injection heq with h1 h2
      subst h1; subst h2
      intro e he
      rcases List.mem_cons.mp he with rfl | he
      · exact ⟨rfl, rfl⟩
      · exact ih _ _ _ _ hpr e he

theorem settleI_values (fee : ℚ) (heap : List SymbolRec) :
    ∀ (orders : Dict) (records out : List SymbolRec) (tr : List TraceEntry),
      (∀ p ∈ orders, 0 ≤ p.2) → (∀ s ∈ heap, 0 ≤ s.buy_price) →
      settleI fee heap orders records = some (out, tr) →
      ∀ e ∈ tr, 0 ≤ e.value ∧ 0 < e.price := by
  induction heap with
  | nil =>
    intro orders records out tr _ _ h
    obtain ⟨-, rfl⟩ := Prod.mk.injEq .. ▸ Option.some.inj h
    intro e he
    exact absurd he (List.not_mem_nil e)
  | cons s rest ih =>
    intro orders records out tr hord hpr h
    rw [settleI] at h
    split at h
    · exact absurd h (by simp)
    · next hpz =>
      obtain ⟨pr, hrec, heq⟩ := Option.map_eq_some'.mp h
      injection heq with h1 h2
      subst h1; subst h2
      have hp0 : 0 < s.buy_price :=
        lt_of_le_of_ne (hpr s (List.mem_cons_self s rest)) (Ne.symm hpz)
      have hv0 : 0 ≤ (dictPop orders s.symbol).1 := dictPop_fst_nonneg orders s.symbol hord
      intro e he
      rcases List.mem_cons.mp he with rfl | he
      · exact ⟨hv0, hp0⟩
      · refine ih _ _ _ _ ?_ (fun r hr => hpr r (List.mem_cons_of_mem s hr)) hrec e he
        intro p hp
        obtain ⟨p0, hp0mem, hp0eq⟩ := List.mem_map.mp hp
        subst hp0eq
        have h1 : 0 ≤ p0.2 := hord p0 (dictPop_snd_subset orders s.symbol p0 hp0mem)
        have h2 : 0 ≤ (dictPop orders s.symbol).1 - stepRaw (dictPop orders s.symbol).1 s.buy_price := by
          have := stepRaw_le (dictPop orders s.symbol).1 s.buy_price hv0 hp0
          linarith
        have h3 : (0:ℚ) ≤ ((dictPop orders s.symbol).2.length : ℚ) := by positivity
        have := div_nonneg h2 h3
        simpa using add_nonneg h1 this

theorem settleI_map {α : Type} (f : SymbolRec → α)
    (hf : ∀ r q ov, f { r with buy_quantity := q, order_value := ov } = f r)
    (fee : ℚ) (heap : List SymbolRec) :
    ∀ (orders : Dict) (records out : List SymbolRec) (tr : List TraceEntry),
      settleI fee heap orders records = some (out, tr) →
      out.map f = records.map f := by
  induction heap with
  | nil =>
    intro orders records out tr h
    obtain ⟨rfl, -⟩ := Prod.mk.injEq .. ▸ Option.some.inj h
    rfl
  | cons s rest ih =>
    intro orders records out tr h
    rw [settleI] at h
    split at h
    · exact absurd h (by simp)
    · obtain ⟨pr, hrec, heq⟩ := Option.map_eq_some'.mp h
      injection heq with h1 h2
      subst h1; subst h2
      rw [ih _ _ _ _ hrec, updateFirst_map f hf]

theorem settleI_out_char (fee : ℚ) (heap : List SymbolRec) :
    ∀ (orders : Dict) (records out : List SymbolRec) (tr : List TraceEntry),
      (heap.map (fun s => s.symbol)).Nodup → (records.map (fun s => s.symbol)).Nodup →
      settleI fee heap orders records = some (out, tr) →
      out = records.map (applyTrace tr) := by
  induction heap with
  | nil =>
    intro orders records out tr _ _ h
    obtain ⟨rfl, rfl⟩ := Prod.mk.injEq .. ▸ Option.some.inj h
    symm
    calc List.map (applyTrace []) records = List.map (fun r => r) records :=
          List.map_congr_left (fun r _ => rfl)
      _ = records := List.map_id' records
  | cons s rest ih =>
    intro orders records out tr hheap hrecs h
    simp only [List.map_cons, List.nodup_cons] at hheap
    rw [settleI] at h
    split at h
    · exact absurd h (by simp)
    · obtain ⟨pr, hrec, heq⟩ := Option.map_eq_some'.mp h
      injection heq with h1 h2
      subst h1; subst h2
      have hrecs1 :
          ((updateFirst records s.symbol (stepQty (dictPop orders s.symbol).1 s.buy_price)
              (pyRound2 (stepRaw (dictPop orders s.symbol).1 s.buy_price * (1 + fee)))).map
            (fun r => r.symbol)).Nodup := by
        rw [updateFirst_map (fun r => r.symbol) (fun _ _ _ => rfl)]
        exact hrecs
      have hout := ih _ _ _ _ hheap.2 hrecs1 hrec
      have htr : pr.2.map (fun e => e.sym) = rest.map (fun s => s.symbol) := by
        have := settleI_trace_pairs fee rest _ _ _ _ hrec
        have h2 := congrArg (List.map Prod.fst) this
        simpa [List.map_map, Function.comp] using h2
      rw [hout, updateFirst_eq_map _ _ _ _ hrecs, List.map_map]
      apply List.map_congr_left
      intro r hr
      simp only [Function.comp]
      by_cases hsym : r.symbol = s.symbol
      · rw [if_pos hsym]
        have hnone : pr.2.find?
            (fun e => e.sym == (({ r with
              buy_quantity := stepQty (dictPop orders s.symbol).1 s.buy_price,
              order_value :=
                pyRound2 (stepRaw (dictPop orders s.symbol).1 s.buy_price * (1 + fee)) } :
                SymbolRec).symbol)) = none := by
          rw [List.find?_eq_none]
          intro e hee
          have : e.sym ∈ rest.map (fun s => s.symbol) := by
            rw [← htr]
            exact List.mem_map.mpr ⟨e, hee, rfl⟩
          simp only [beq_iff_eq]
          intro hc
          apply hheap.1
          rw [← hsym, ← hc]
          exact this
        rw [applyTrace, hnone, applyTrace]
        rw [List.find?_cons_of_pos _ (by simpa using hsym.symm)]
      · rw [if_neg hsym]
        rw [applyTrace, applyTrace]
        rw [List.find?_cons_of_neg _ (by simpa using fun hc : s.symbol = r.symbol => hsym hc.symm)]

end SettleLemmas

section AssemblyLemmas

theorem calculate_orders_eqI (symbols : List SymbolRec) (invest fee : ℚ) :
    calculate_orders symbols invest fee =
      (calculate_ordersI symbols invest fee).map (fun p => p.1) := by
  unfold calculate_orders calculate_ordersI
  cases prepare symbols invest fee with
  | none => rfl
  | some sd =>
    simp only [settle_eq_settleI, Option.map_map]
    cases settleI fee (heapSort sd.1) sd.2 sd.1 with
    | none => rfl
    | some pr => rfl

theorem prepare_fst_symbols (symbols : List SymbolRec) (invest fee : ℚ)
    (sd : List SymbolRec × Dict) (h : prepare symbols invest fee = some sd) :
    sd.1.map (fun r => r.symbol) = symbols.map (fun r => r.symbol) := by
  rw [prepare_fst symbols invest fee sd h, List.map_map]
  rfl

theorem prepare_fst_prices (symbols : List SymbolRec) (invest fee : ℚ)
    (sd : List SymbolRec × Dict) (h : prepare symbols invest fee = some sd)
    (hp : ∀ r ∈ symbols, 0 ≤ r.buy_price) :
    ∀ r ∈ sd.1, 0 ≤ r.buy_price := by
  rw [prepare_fst symbols invest fee sd h]
  intro r hr
  obtain ⟨r0, hr0, rfl⟩ := List.mem_map.mp hr
  exact hp r0 hr0

theorem calcI_link (symbols : List SymbolRec) (invest fee : ℚ)
    (out : List SymbolRec) (tr : List TraceEntry)
    (hnd : (symbols.map (fun r => r.symbol)).Nodup)
    (h : calculate_ordersI symbols invest fee = some (out, tr)) :
    ∀ r ∈ out, ∃ e ∈ tr, e.sym = r.symbol ∧ e.price = r.buy_price ∧
      r.buy_quantity = e.q ∧ r.order_value = e.ov := by
  unfold calculate_ordersI at h
  cases hpre : prepare symbols invest fee with
  | none => rw [hpre] at h; exact absurd h (by simp)
  | some sd =>
    rw [hpre] at h
    obtain ⟨pr, hset, heq⟩ := Option.map_eq_some'.mp h
    obtain ⟨out0, tr0⟩ := pr
    injection heq with h1 h2
    subst h1; subst h2
    have hndsd : (sd.1.map (fun r => r.symbol)).Nodup := by
      rw [prepare_fst_symbols symbols invest fee sd hpre]
      exact hnd
    have hheap_perm : List.Perm (heapSort sd.1) sd.1 := List.perm_insertionSort priceGe sd.1
    have hheapnd : ((heapSort sd.1).map (fun r => r.symbol)).Nodup :=
      ((hheap_perm.map (fun r => r.symbol)).nodup_iff).mpr hndsd
    have hchar := settleI_out_char fee (heapSort sd.1) sd.2 sd.1 out0 tr0 hheapnd hndsd hset
    have hpairs := settleI_trace_pairs fee (heapSort sd.1) sd.2 sd.1 out0 tr0 hset
    have htrsyms : tr0.map (fun e => e.sym) = (heapSort sd.1).map (fun s => s.symbol) := by
      have h2 := congrArg (List.map Prod.fst) hpairs
      simpa [List.map_map, Function.comp] using h2
    intro r hr
    have hrmem : r ∈ out0 := (List.perm_insertionSort symbolLe out0).subset hr
    rw [hchar] at hrmem
    obtain ⟨r0, hr0, rfl⟩ := List.mem_map.mp hrmem
    have hsym_in : r0.symbol ∈ tr0.map (fun e => e.sym) := by
      rw [htrsyms]
      have hmem : r0.symbol ∈ sd.1.map (fun s => s.symbol) :=
        List.mem_map.mpr ⟨r0, hr0, rfl⟩
      exact ((hheap_perm.map (fun s => s.symbol)).mem_iff).mpr hmem
    have hfs : (tr0.find? (fun e => e.sym == r0.symbol)).isSome := by
      rw [List.find?_isSome]
      obtain ⟨e, he, hesym⟩ := List.mem_map.mp hsym_in
      exact ⟨e, he, by simpa using hesym⟩
    obtain ⟨e', hfind⟩ := Option.isSome_iff_exists.mp hfs
    have he'mem : e' ∈ tr0 := List.mem_of_find?_eq_some hfind
    have he'sym : e'.sym = r0.symbol := by
      have := List.find?_some hfind
      simpa using this
    have happ : applyTrace tr0 r0 =
        { r0 with buy_quantity := e'.q, order_value := e'.ov } := by
      rw [applyTrace, hfind]
    have hprice : e'.price = r0.buy_price := by
      have hpair_mem : (e'.sym, e'.price) ∈ tr0.map (fun e => (e.sym, e.price)) :=
        List.mem_map.mpr ⟨e', he'mem, rfl⟩
      rw [hpairs] at hpair_mem
      obtain ⟨h', hh'mem, hh'eq⟩ := List.mem_map.mp hpair_mem
      have hh'sd : h' ∈ sd.1 := hheap_perm.subset hh'mem
      have hh'sym : h'.symbol = r0.symbol := by
        have := congrArg Prod.fst hh'eq
        simpa [he'sym] using this
      have : h' = r0 := List.inj_on_of_nodup_map hndsd hh'sd hr0 (by simpa using hh'sym)
      subst this
      have := congrArg Prod.snd hh'eq
      simpa using this.symm
    refine ⟨e', he'mem, ?_, ?_, ?_, ?_⟩
    · rw [happ, he'sym]
    · rw [happ, hprice]
    · rw [happ]
    · rw [happ]

theorem calcI_tr_entryOk (symbols : List SymbolRec) (invest fee : ℚ)
    (out : List SymbolRec) (tr : List TraceEntry)
    (h : calculate_ordersI symbols invest fee = some (out, tr)) :
    ∀ e ∈ tr, entryOk fee e := by
  unfold calculate_ordersI at h
  cases hpre : prepare symbols invest fee with
  | none => rw [hpre] at h; exact absurd h (by simp)
  | some sd =>
    rw [hpre] at h
    obtain ⟨pr, hset, heq⟩ := Option.map_eq_some'.mp h
    obtain ⟨out0, tr0⟩ := pr
    injection heq with h1 h2
    subst h1; subst h2
    exact settleI_entryOk fee (heapSort sd.1) sd.2 sd.1 out0 tr0 hset

theorem calcI_tr_values (symbols : List SymbolRec) (invest fee : ℚ)
    (out : List SymbolRec) (tr : List TraceEntry)
    (hi : 0 ≤ invest) (hf0 : 0 ≤ fee) (hf1 : fee ≤ 1)
    (hw : ∀ r ∈ symbols, 0 ≤ r.weight) (hp : ∀ r ∈ symbols, 0 ≤ r.buy_price)
    (h : calculate_ordersI symbols invest fee = some (out, tr)) :
    ∀ e ∈ tr, 0 ≤ e.value ∧ 0 < e.price := by
  unfold calculate_ordersI at h
  cases hpre : prepare symbols invest fee with
  | none => rw [hpre] at h; exact absurd h (by simp)
  | some sd =>
    rw [hpre] at h
    obtain ⟨pr, hset, heq⟩ := Option.map_eq_some'.mp h
    obtain ⟨out0, tr0⟩ := pr
    injection heq with h1 h2
    subst h1; subst h2
    have hords := prepare_snd_nonneg symbols invest fee sd hi hf0 hf1 hw hpre
    have hprices : ∀ s ∈ heapSort sd.1, 0 ≤ s.buy_price := by
      intro s hs
      exact prepare_fst_prices symbols invest fee sd hpre hp s
        ((List.perm_insertionSort priceGe sd.1).subset hs)
    exact settleI_values fee (heapSort sd.1) sd.2 sd.1 out0 tr0 hords hprices hset

end AssemblyLemmas

section ConcreteInputs

/-- The two-symbol scenario of the specification: weights 0.6 and 0.4, prices
100 and 50, no holdings, invest 1000 at fee 0. -/
def scenarioA : List SymbolRec :=
  [⟨0, 6/10, 100, 0, 0, 0, 0⟩, ⟨1, 4/10, 50, 0, 0, 0, 0⟩]

/-- The same two symbols listed in the reverse order. -/
def scenarioRev : List SymbolRec :=
  [⟨1, 4/10, 50, 0, 0, 0, 0⟩, ⟨0, 6/10, 100, 0, 0, 0, 0⟩]

/-- The allocation computed for the scenario. -/
def scenarioA_out : List SymbolRec :=
  [⟨0, 6/10, 100, 0, 6, 600, 0⟩, ⟨1, 4/10, 50, 0, 8, 400, 0⟩]

/-- The settlement trace of the scenario. -/
def scenarioA_tr : List TraceEntry :=
  [⟨0, 100, 600, 6, 600⟩, ⟨1, 50, 400, 8, 400⟩]

/-- A single symbol with weight zero: the weight sum is zero. -/
def zeroWeightInput : List SymbolRec := [⟨0, 0, 1, 0, 0, 0, 0⟩]

/-- A healthy symbol plus one with buy price zero. -/
def zeroPriceInput : List SymbolRec :=
  [⟨0, 1, 1, 0, 0, 0, 0⟩, ⟨1, 0, 0, 0, 0, 0, 0⟩]

/-- A perfectly balanced one-symbol portfolio with nothing to invest: every
gap is zero, so the candidate set is empty while its sum still satisfies
S >= net_amount. -/
def balancedInput : List SymbolRec := [⟨0, 1, 1, 1, 0, 0, 0⟩]

/-- An expensive symbol whose allocation cannot buy one share: its whole cash
cascades onto the cheap symbol during settlement. -/
def cascadeInput : List SymbolRec :=
  [⟨0, 7/10, 1000, 0, 0, 0, 0⟩, ⟨1, 3/10, 1, 0, 0, 0, 0⟩]

/-- A record with a negative buy price next to a healthy one; the stated
preconditions do not exclude it. -/
def negPriceInput : List SymbolRec :=
  [⟨0, 3/10, -500, 0, 0, 0, 0⟩, ⟨1, 7/10, 1, 0, 0, 0, 0⟩]

theorem scenarioA_evalI :
    calculate_ordersI scenarioA 1000 0 = some (scenarioA_out, scenarioA_tr) := by
  norm_num [calculate_ordersI, prepare, step4, firstPass, dictSet, dictSum, dictPop,
    netAmount, actualPortfolio, weightSum, distributeExtra, weightOf, heapSort,
    symbolSort, List.insertionSort, List.orderedInsert, settleI, updateFirst,
    stepQty, stepRaw, pyRound2, roundHalfEven, MINIMUM_ORDER_VALUE, Int.fract,
    priceGe, symbolLe, scenarioA, scenarioA_out, scenarioA_tr]

theorem scenarioA_eval : calculate_orders scenarioA 1000 0 = some scenarioA_out := by
  rw [calculate_orders_eqI, scenarioA_evalI]
  rfl

theorem scenarioRev_eval : calculate_orders scenarioRev 1000 0 = some scenarioA_out := by
  norm_num [calculate_orders, prepare, step4, firstPass, dictSet, dictSum, dictPop,
    netAmount, actualPortfolio, weightSum, distributeExtra, weightOf, heapSort,
    symbolSort, List.insertionSort, List.orderedInsert, settle, updateFirst,
    stepQty, stepRaw, pyRound2, roundHalfEven, MINIMUM_ORDER_VALUE, Int.fract,
    priceGe, symbolLe, scenarioRev, scenarioA_out]

end ConcreteInputs

/-- C1: the claim says calculate_orders guards the zero divisors and returns
the symbol set with all orders zeroed.  The code has no such guard: on an
input whose weight sum is zero it raises ZeroDivisionError at
scale_factor = 1 / sum(weights), modelled here by the result none instead of
an all-zero order list. -/
theorem C1_zero_weight_sum_raises :
    weightSum zeroWeightInput = 0 ∧ calculate_orders zeroWeightInput 1000 0 = none := by
  constructor
  · norm_num [zeroWeightInput, weightSum]
  · norm_num [calculate_orders, prepare, zeroWeightInput, weightSum]

/-- C2 counterexample: on a balanced portfolio with nothing to invest the
candidate gap sum S = 0 satisfies S >= net_amount = 0, yet the scaling branch
divides by S and raises (result none), so no pre-settlement allocation summing
to net_amount exists. -/
theorem C2_counterexample :
    weightSum balancedInput ≠ 0 ∧
    netAmount 0 0 ≤ dictSum (step4 balancedInput 0 0).2 ∧
    ¬ (presettleOrders balancedInput 0 0).map dictSum = some (netAmount 0 0) := by
  refine ⟨?_, ?_, ?_⟩
  · norm_num [balancedInput, weightSum]
  · norm_num [balancedInput, weightSum, netAmount, step4, firstPass, dictSet, dictSum,
      actualPortfolio]
  · have h : presettleOrders balancedInput 0 0 = none := by
      norm_num [balancedInput, weightSum, netAmount, step4, firstPass, dictSet, dictSum,
        actualPortfolio, presettleOrders, prepare]
    rw [h]
    simp

/-- C2 (amended): when the weight sum is nonzero and the positive gap sum S
of Step 4 satisfies S >= net_amount and is itself positive, the uniform
scaling of the else branch makes the pre-settlement order cash sum exactly
net_amount. -/
theorem C2_else_branch_conserves (symbols : List SymbolRec) (invest fee : ℚ)
    (hw : weightSum symbols ≠ 0)
    (hge : netAmount invest fee ≤ dictSum (step4 symbols invest fee).2)
    (hpos : 0 < dictSum (step4 symbols invest fee).2) :
    (presettleOrders symbols invest fee).map dictSum = some (netAmount invest fee) := by
  simp only [presettleOrders, prepare]
  rw [if_neg hw, if_neg (not_lt.mpr hge), if_neg (ne_of_gt hpos)]
  simp only [Option.map_some']
  rw [dictSum_scale, mul_comm, div_mul_cancel₀ _ (ne_of_gt hpos)]

/-- C2 witness: the specification scenario takes the else branch with
S = net_amount = 1000 and conserves it exactly. -/
theorem C2_witness :
    (presettleOrders scenarioA 1000 0).map dictSum = some (netAmount 1000 0) := by
  refine C2_else_branch_conserves scenarioA 1000 0 ?_ ?_ ?_
  · norm_num [scenarioA, weightSum]
  · norm_num [scenarioA, weightSum, netAmount, step4, firstPass, dictSet, dictSum,
      actualPortfolio]
  · norm_num [scenarioA, weightSum, netAmount, step4, firstPass, dictSet, dictSum,
      actualPortfolio]

/-- C4: the claim says the preconditions rule out every exception.  They do
not: this input satisfies them (invest 100 >= 0, fee 0 in [0,1), weights
nonnegative, symbol 0 has positive price and weight), yet the settlement pass
divides by the buy price 0 of symbol 1 and raises, modelled by none. -/
theorem C4_zero_price_symbol_raises :
    ((0:ℚ) ≤ 100 ∧ (0:ℚ) ≤ 0 ∧ (0:ℚ) < 1 ∧
      (∀ r ∈ zeroPriceInput, 0 ≤ r.weight) ∧
      (∃ r ∈ zeroPriceInput, 0 < r.buy_price ∧ 0 < r.weight)) ∧
    calculate_orders zeroPriceInput 100 0 = none := by
  refine ⟨⟨by norm_num, by norm_num, by norm_num, ?_, ?_⟩, ?_⟩
  · intro r hr
    rcases List.mem_cons.mp hr with rfl | hr
    · norm_num
    · rcases List.mem_cons.mp hr with rfl | hr
      · norm_num
      · exact absurd hr (List.not_mem_nil r)
  · exact ⟨⟨0, 1, 1, 0, 0, 0, 0⟩, List.mem_cons_self _ _, by norm_num⟩
  · norm_num [calculate_orders, prepare, step4, firstPass, dictSet, dictSum, dictPop,
      netAmount, actualPortfolio, weightSum, distributeExtra, weightOf, heapSort,
      symbolSort, List.insertionSort, List.orderedInsert, settle, updateFirst,
      stepQty, stepRaw, pyRound2, roundHalfEven, MINIMUM_ORDER_VALUE, Int.fract,
      priceGe, symbolLe, zeroPriceInput]

/-- C3 counterexample: symbol 1 enters settlement with pre-settlement cash 300
but inherits symbol 0's whole leftover of 700, so its final order value 1000
exceeds its pre-settlement allocated cash times (1 + fee_rate) = 300. -/
theorem C3_counterexample :
    (presettleOrders cascadeInput 1000 0).map (fun d => dictGet d 1) = some 300 ∧
    (calculate_orders cascadeInput 1000 0).map (fun l => l.map (fun r => r.order_value)) =
      some [0, 1000] ∧
    ¬ ((1000:ℚ) ≤ 300 * (1 + 0)) := by
  refine ⟨?_, ?_, by norm_num⟩
  · norm_num [cascadeInput, weightSum, netAmount, step4, firstPass, dictSet, dictSum,
      dictGet, actualPortfolio, presettleOrders, prepare]
  · norm_num [calculate_orders, prepare, step4, firstPass, dictSet, dictSum, dictPop,
      netAmount, actualPortfolio, weightSum, distributeExtra, weightOf, heapSort,
      symbolSort, List.insertionSort, List.orderedInsert, settle, updateFirst,
      stepQty, stepRaw, pyRound2, roundHalfEven, MINIMUM_ORDER_VALUE, Int.fract,
      priceGe, symbolLe, cascadeInput]

/-- C3 (amended): under the preconditions, with nonnegative prices and unique
symbol keys, no final order value exceeds the cash allocated to that symbol at
its settlement step (its pre-settlement cash plus every received
redistribution) times (1 + fee_rate), beyond the half-cent the 2-decimal
rounding can add. -/
theorem C3_no_oversell_of_settlement_cash (symbols : List SymbolRec) (invest fee : ℚ)
    (out : List SymbolRec) (tr : List TraceEntry)
    (hi : 0 ≤ invest) (hf0 : 0 ≤ fee) (hf1 : fee ≤ 1)
    (hw : ∀ r ∈ symbols, 0 ≤ r.weight) (hp : ∀ r ∈ symbols, 0 ≤ r.buy_price)
    (hnd : (symbols.map (fun r => r.symbol)).Nodup)
    (h : calculate_ordersI symbols invest fee = some (out, tr)) :
    ∀ r ∈ out, ∃ e ∈ tr, e.sym = r.symbol ∧
      r.order_value ≤ e.value * (1 + fee) + 1/200 := by
  intro r hr
  obtain ⟨e, he, hesym, heprice, hq, hov⟩ := calcI_link symbols invest fee out tr hnd h r hr
  have hok := calcI_tr_entryOk symbols invest fee out tr h e he
  have hval := calcI_tr_values symbols invest fee out tr hi hf0 hf1 hw hp h e he
  refine ⟨e, he, hesym, ?_⟩
  rw [hov, hok.2]
  have hraw_le : stepRaw e.value e.price ≤ e.value := stepRaw_le _ _ hval.1 hval.2
  have h1 : stepRaw e.value e.price * (1 + fee) ≤ e.value * (1 + fee) :=
    mul_le_mul_of_nonneg_right hraw_le (by linarith)
  have h2 := pyRound2_le (stepRaw e.value e.price * (1 + fee))
  linarith

/-- C3 witness: the bound instantiated at the first record of the
specification scenario output. -/
theorem C3_witness :
    ∃ e ∈ scenarioA_tr, e.sym = (⟨0, 6/10, 100, 0, 6, 600, 0⟩ : SymbolRec).symbol ∧
      (⟨0, 6/10, 100, 0, 6, 600, 0⟩ : SymbolRec).order_value ≤ e.value * (1 + 0) + 1/200 := by
  refine C3_no_oversell_of_settlement_cash scenarioA 1000 0 scenarioA_out scenarioA_tr
    (by norm_num) (by norm_num) (by norm_num) ?_ ?_ ?_ scenarioA_evalI
    ⟨0, 6/10, 100, 0, 6, 600, 0⟩ ?_
  · intro r hr
    rcases List.mem_cons.mp hr with rfl | hr
    · norm_num
    · rcases List.mem_cons.mp hr with rfl | hr
      · norm_num
      · exact absurd hr (List.not_mem_nil r)
  · intro r hr
    rcases List.mem_cons.mp hr with rfl | hr
    · norm_num
    · rcases List.mem_cons.mp hr with rfl | hr
      · norm_num
      · exact absurd hr (List.not_mem_nil r)
  · simp [scenarioA]
  · show (⟨0, 6/10, 100, 0, 6, 600, 0⟩ : SymbolRec) ∈ scenarioA_out
    simp [scenarioA_out]

/-- C5: every output record is either fully zeroed, or carries the floor of
its settlement-step allocated cash over its price as quantity and the
2-decimal rounding of quantity times price times (1 + fee_rate) as order
value. -/
theorem C5_order_shape (symbols : List SymbolRec) (invest fee : ℚ)
    (out : List SymbolRec) (tr : List TraceEntry)
    (hnd : (symbols.map (fun r => r.symbol)).Nodup)
    (h : calculate_ordersI symbols invest fee = some (out, tr)) :
    ∀ r ∈ out, (r.buy_quantity = 0 ∧ r.order_value = 0) ∨
      (∃ e ∈ tr, e.sym = r.symbol ∧ r.buy_quantity = ⌊e.value / r.buy_price⌋ ∧
        r.order_value = pyRound2 ((r.buy_quantity : ℚ) * r.buy_price * (1 + fee))) := by
  intro r hr
  obtain ⟨e, he, hesym, heprice, hq, hov⟩ := calcI_link symbols invest fee out tr hnd h r hr
  obtain ⟨hq', hov'⟩ := calcI_tr_entryOk symbols invest fee out tr h e he
  rcases stepQty_zero_or e.value e.price with ⟨hz, hrz⟩ | ⟨hfl, hmin⟩
  · left
    constructor
    · rw [hq, hq', hz]
    · rw [hov, hov', hrz, zero_mul, pyRound2_zero]
  · right
    refine ⟨e, he, hesym, ?_, ?_⟩
    · rw [hq, hq', hfl, heprice]
    · rw [hov, hov', hq, hq', stepRaw_eq_qty, heprice]

/-- C5 witness: the shape instantiated at the first record of the
specification scenario output. -/
theorem C5_witness :
    ((⟨0, 6/10, 100, 0, 6, 600, 0⟩ : SymbolRec).buy_quantity = 0 ∧
        (⟨0, 6/10, 100, 0, 6, 600, 0⟩ : SymbolRec).order_value = 0) ∨
      (∃ e ∈ scenarioA_tr, e.sym = (⟨0, 6/10, 100, 0, 6, 600, 0⟩ : SymbolRec).symbol ∧
        (⟨0, 6/10, 100, 0, 6, 600, 0⟩ : SymbolRec).buy_quantity =
          ⌊e.value / (⟨0, 6/10, 100, 0, 6, 600, 0⟩ : SymbolRec).buy_price⌋ ∧
        (⟨0, 6/10, 100, 0, 6, 600, 0⟩ : SymbolRec).order_value =
          pyRound2 (((⟨0, 6/10, 100, 0, 6, 600, 0⟩ : SymbolRec).buy_quantity : ℚ) *
            (⟨0, 6/10, 100, 0, 6, 600, 0⟩ : SymbolRec).buy_price * (1 + 0))) := by
  refine C5_order_shape scenarioA 1000 0 scenarioA_out scenarioA_tr ?_ scenarioA_evalI
    ⟨0, 6/10, 100, 0, 6, 600, 0⟩ ?_
  · simp [scenarioA]
  · show (⟨0, 6/10, 100, 0, 6, 600, 0⟩ : SymbolRec) ∈ scenarioA_out
    simp [scenarioA_out]

/-- C6: for every output record, either the order value is zero or the
pre-fee raw value (quantity times price) strictly exceeds
MINIMUM_ORDER_VALUE; any raw value at or below the threshold is forced to a
fully zeroed order. -/
theorem C6_threshold (symbols : List SymbolRec) (invest fee : ℚ) (out : List SymbolRec)
    (hnd : (symbols.map (fun r => r.symbol)).Nodup)
    (h : calculate_orders symbols invest fee = some out) :
    ∀ r ∈ out,
      (r.order_value = 0 ∨ MINIMUM_ORDER_VALUE < (r.buy_quantity : ℚ) * r.buy_price) ∧
      ((r.buy_quantity : ℚ) * r.buy_price ≤ MINIMUM_ORDER_VALUE →
        r.buy_quantity = 0 ∧ r.order_value = 0) := by
  rw [calculate_orders_eqI] at h
  obtain ⟨pr, hI, hfst⟩ := Option.map_eq_some'.mp h
  obtain ⟨out0, tr⟩ := pr
  have hout : out0 = out := hfst
  subst hout
  intro r hr
  obtain ⟨e, he, hesym, heprice, hq, hov⟩ := calcI_link symbols invest fee out0 tr hnd hI r hr
  obtain ⟨hq', hov'⟩ := calcI_tr_entryOk symbols invest fee out0 tr hI e he
  rcases stepQty_zero_or e.value e.price with ⟨hz, hrz⟩ | ⟨hfl, hmin⟩
  · have hq0 : r.buy_quantity = 0 := by rw [hq, hq', hz]
    have hov0 : r.order_value = 0 := by rw [hov, hov', hrz, zero_mul, pyRound2_zero]
    exact ⟨Or.inl hov0, fun _ => ⟨hq0, hov0⟩⟩
  · have hqp : (r.buy_quantity : ℚ) * r.buy_price = stepRaw e.value e.price := by
      rw [hq, hq', ← heprice, stepRaw_eq_qty]
    constructor
    · right
      rw [hqp]
      exact hmin
    · intro hle
      rw [hqp] at hle
      exact absurd hle (not_le.mpr hmin)

/-- C6 witness: the threshold property at the first record of the
specification scenario output. -/
theorem C6_witness :
    ((⟨0, 6/10, 100, 0, 6, 600, 0⟩ : SymbolRec).order_value = 0 ∨
      MINIMUM_ORDER_VALUE < ((⟨0, 6/10, 100, 0, 6, 600, 0⟩ : SymbolRec).buy_quantity : ℚ) *
        (⟨0, 6/10, 100, 0, 6, 600, 0⟩ : SymbolRec).buy_price) ∧
    (((⟨0, 6/10, 100, 0, 6, 600, 0⟩ : SymbolRec).buy_quantity : ℚ) *
        (⟨0, 6/10, 100, 0, 6, 600, 0⟩ : SymbolRec).buy_price ≤ MINIMUM_ORDER_VALUE →
      (⟨0, 6/10, 100, 0, 6, 600, 0⟩ : SymbolRec).buy_quantity = 0 ∧
        (⟨0, 6/10, 100, 0, 6, 600, 0⟩ : SymbolRec).order_value = 0) := by
  refine C6_threshold scenarioA 1000 0 scenarioA_out ?_ scenarioA_eval
    ⟨0, 6/10, 100, 0, 6, 600, 0⟩ ?_
  · simp [scenarioA]
  · show (⟨0, 6/10, 100, 0, 6, 600, 0⟩ : SymbolRec) ∈ scenarioA_out
    simp [scenarioA_out]

/-- Summing the rescaled weights of a record list. -/
theorem weight_map_mul_sum (l : List SymbolRec) (c : ℚ) :
    (l.map (fun r => r.weight * c)).sum = weightSum l * c := by
  unfold weightSum
  induction l with
  | nil => simp
  | cons r rest ih =>
    simp only [List.map_cons, List.sum_cons]
    rw [ih]
    ring

/-- C7: with a positive weight sum, the returned records carry the input
weights multiplied by scale = 1 / (sum of weights), and those rescaled
weights sum to exactly 1. -/
theorem C7_weights_rescaled (symbols : List SymbolRec) (invest fee : ℚ)
    (out : List SymbolRec)
    (hw : 0 < weightSum symbols)
    (h : calculate_orders symbols invest fee = some out) :
    List.Perm (out.map (fun r => r.weight))
      (symbols.map (fun r => r.weight * (1 / weightSum symbols))) ∧
    (out.map (fun r => r.weight)).sum = 1 := by
  unfold calculate_orders at h
  cases hpre : prepare symbols invest fee with
  | none => rw [hpre] at h; exact absurd h (by simp)
  | some sd =>
    rw [hpre] at h
    obtain ⟨out0, hset, rfl⟩ := Option.map_eq_some'.mp h
    rw [settle_eq_settleI] at hset
    obtain ⟨pr, hI, hfst⟩ := Option.map_eq_some'.mp hset
    obtain ⟨out1, tr⟩ := pr
    have hout : out1 = out0 := hfst
    subst hout
    have hmapw : out1.map (fun r => r.weight) = sd.1.map (fun r => r.weight) :=
      settleI_map (fun r => r.weight) (fun _ _ _ => rfl) fee (heapSort sd.1) sd.2 sd.1
        out1 tr hI
    have hmap2 : sd.1.map (fun r => r.weight) =
        symbols.map (fun r => r.weight * (1 / weightSum symbols)) := by
      rw [prepare_fst symbols invest fee sd hpre, List.map_map]
      rfl
    have hperm : List.Perm ((symbolSort out1).map (fun r => r.weight))
        (out1.map (fun r => r.weight)) :=
      (List.perm_insertionSort symbolLe out1).map _
    constructor
    · rw [← hmap2, ← hmapw]
      exact hperm
    · rw [hperm.sum_eq, hmapw, hmap2, weight_map_mul_sum, mul_one_div,
        div_self (ne_of_gt hw)]

/-- C7 witness: on the specification scenario the weights already sum to one
and are returned unchanged. -/
theorem C7_witness :
    List.Perm (scenarioA_out.map (fun r => r.weight))
      (scenarioA.map (fun r => r.weight * (1 / weightSum scenarioA))) ∧
    (scenarioA_out.map (fun r => r.weight)).sum = 1 := by
  refine C7_weights_rescaled scenarioA 1000 0 scenarioA_out ?_ scenarioA_eval
  norm_num [scenarioA, weightSum]

/-- C8: the output contains exactly the input symbols (a permutation of the
same multiset), strictly ascending by symbol, and every record whose quantity
is zero also carries order value zero. -/
theorem C8_output_sorted_complete (symbols : List SymbolRec) (invest fee : ℚ)
    (out : List SymbolRec)
    (hnd : (symbols.map (fun r => r.symbol)).Nodup)
    (h : calculate_orders symbols invest fee = some out) :
    List.Perm (out.map (fun r => r.symbol)) (symbols.map (fun r => r.symbol)) ∧
    List.Sorted (fun a b : ℕ => a < b) (out.map (fun r => r.symbol)) ∧
    ∀ r ∈ out, r.buy_quantity = 0 → r.order_value = 0 := by
  unfold calculate_orders at h
  cases hpre : prepare symbols invest fee with
  | none => rw [hpre] at h; exact absurd h (by simp)
  | some sd =>
    rw [hpre] at h
    obtain ⟨out1, hset, rfl⟩ := Option.map_eq_some'.mp h
    rw [settle_eq_settleI] at hset
    obtain ⟨pr, hI, hfst⟩ := Option.map_eq_some'.mp hset
    obtain ⟨out0, tr⟩ := pr
    have hout : out0 = out1 := hfst
    subst hout
    have hm1 : out0.map (fun r => r.symbol) = sd.1.map (fun r => r.symbol) :=
      settleI_map (fun r => r.symbol) (fun _ _ _ => rfl) fee (heapSort sd.1) sd.2 sd.1
        out0 tr hI
    have hm2 : sd.1.map (fun r => r.symbol) = symbols.map (fun r => r.symbol) :=
      prepare_fst_symbols symbols invest fee sd hpre
    have hperm : List.Perm ((symbolSort out0).map (fun r => r.symbol))
        (symbols.map (fun r => r.symbol)) := by
      have := (List.perm_insertionSort symbolLe out0).map (fun r => r.symbol)
      rw [hm1, hm2] at this
      exact this
    have hIfull : calculate_ordersI symbols invest fee = some (symbolSort out0, tr) := by
      unfold calculate_ordersI
      rw [hpre]
      show Option.map (fun p => (symbolSort p.1, p.2)) (settleI fee (heapSort sd.1) sd.2 sd.1)
        = some (symbolSort out0, tr)
      rw [hI]
      rfl
    refine ⟨hperm, ?_, ?_⟩
    · have hsorted : List.Sorted symbolLe (symbolSort out0) :=
        List.sorted_insertionSort symbolLe out0
      have hnodup : ((symbolSort out0).map (fun r => r.symbol)).Nodup :=
        (hperm.nodup_iff).mpr hnd
      have hpw2 : List.Pairwise (fun a b : SymbolRec => a.symbol ≠ b.symbol)
          (symbolSort out0) := (List.pairwise_map).mp hnodup
      have hcomb := (hsorted.and hpw2).imp
        (fun {a b} hab => lt_of_le_of_ne hab.1 hab.2)
      exact (List.pairwise_map).mpr hcomb
    · intro r hr hq0
      obtain ⟨e, he, hesym, heprice, hq, hov⟩ :=
        calcI_link symbols invest fee (symbolSort out0) tr hnd hIfull r hr
      obtain ⟨hq', hov'⟩ := calcI_tr_entryOk symbols invest fee (symbolSort out0) tr hIfull e he
      rcases stepQty_zero_or e.value e.price with ⟨hz, hrz⟩ | ⟨hfl, hmin⟩
      · rw [hov, hov', hrz, zero_mul, pyRound2_zero]
      · exfalso
        have hzero : stepQty e.value e.price = 0 := by rw [← hq', ← hq, hq0]
        rw [stepRaw_eq_qty, hzero] at hmin
        norm_num [MINIMUM_ORDER_VALUE] at hmin

/-- C8 witness: the scenario entered in reverse order comes out complete and
strictly sorted. -/
theorem C8_witness :
    List.Perm (scenarioA_out.map (fun r => r.symbol)) (scenarioRev.map (fun r => r.symbol)) ∧
    List.Sorted (fun a b : ℕ => a < b) (scenarioA_out.map (fun r => r.symbol)) ∧
    ∀ r ∈ scenarioA_out, r.buy_quantity = 0 → r.order_value = 0 := by
  refine C8_output_sorted_complete scenarioRev 1000 0 scenarioA_out ?_ scenarioRev_eval
  simp [scenarioRev]

/-- C9 counterexample: the stated preconditions allow a record with negative
buy price; on it the settlement floor produces buy_quantity = -1, violating
output non-negativity. -/
theorem C9_counterexample :
    ((0:ℚ) ≤ 1000 ∧ (0:ℚ) ≤ 0 ∧ (0:ℚ) < 1 ∧
      (∀ r ∈ negPriceInput, 0 ≤ r.weight) ∧
      (∃ r ∈ negPriceInput, 0 < r.buy_price ∧ 0 < r.weight)) ∧
    (calculate_orders negPriceInput 1000 0).map (fun l => l.map (fun r => r.buy_quantity)) =
      some [-1, 700] ∧
    ¬ (0 ≤ (-1 : ℤ)) := by
  refine ⟨⟨by norm_num, by norm_num, by norm_num, ?_, ?_⟩, ?_, by norm_num⟩
  · intro r hr
    rcases List.mem_cons.mp hr with rfl | hr
    · norm_num
    · rcases List.mem_cons.mp hr with rfl | hr
      · norm_num
      · exact absurd hr (List.not_mem_nil r)
  · refine ⟨⟨1, 7/10, 1, 0, 0, 0, 0⟩, ?_, by norm_num⟩
    exact List.mem_cons_of_mem _ (List.mem_cons_self _ _)
  · norm_num [calculate_orders, prepare, step4, firstPass, dictSet, dictSum, dictPop,
      netAmount, actualPortfolio, weightSum, distributeExtra, weightOf, heapSort,
      symbolSort, List.insertionSort, List.orderedInsert, settle, updateFirst,
      stepQty, stepRaw, pyRound2, roundHalfEven, MINIMUM_ORDER_VALUE, Int.fract,
      priceGe, symbolLe, negPriceInput]

/-- C9 (amended): under the preconditions, with nonnegative buy prices and
unique symbol keys, every output record has nonnegative buy_quantity and
order_value. -/
theorem C9_nonneg_orders (symbols : List SymbolRec) (invest fee : ℚ)
    (out : List SymbolRec)
    (hi : 0 ≤ invest) (hf0 : 0 ≤ fee) (hf1 : fee ≤ 1)
    (hw : ∀ r ∈ symbols, 0 ≤ r.weight) (hp : ∀ r ∈ symbols, 0 ≤ r.buy_price)
    (hnd : (symbols.map (fun r => r.symbol)).Nodup)
    (h : calculate_orders symbols invest fee = some out) :
    ∀ r ∈ out, 0 ≤ r.buy_quantity ∧ 0 ≤ r.order_value := by
  rw [calculate_orders_eqI] at h
  obtain ⟨pr, hI, hfst⟩ := Option.map_eq_some'.mp h
  obtain ⟨out0, tr⟩ := pr
  have hout : out0 = out := hfst
  subst hout
  intro r hr
  obtain ⟨e, he, hesym, heprice, hq, hov⟩ := calcI_link symbols invest fee out0 tr hnd hI r hr
  obtain ⟨hq', hov'⟩ := calcI_tr_entryOk symbols invest fee out0 tr hI e he
  have hval := calcI_tr_values symbols invest fee out0 tr hi hf0 hf1 hw hp hI e he
  constructor
  · rw [hq, hq']
    exact stepQty_nonneg _ _ hval.1 hval.2
  · rw [hov, hov']
    apply pyRound2_nonneg
    have h1 := stepRaw_nonneg _ _ hval.1 hval.2
    have h2 : (0:ℚ) ≤ 1 + fee := by linarith
    exact mul_nonneg h1 h2

/-- C9 witness: non-negativity at the first record of the specification
scenario output. -/
theorem C9_witness :
    0 ≤ (⟨0, 6/10, 100, 0, 6, 600, 0⟩ : SymbolRec).buy_quantity ∧
      0 ≤ (⟨0, 6/10, 100, 0, 6, 600, 0⟩ : SymbolRec).order_value := by
  refine C9_nonneg_orders scenarioA 1000 0 scenarioA_out (by norm_num) (by norm_num)
    (by norm_num) ?_ ?_ ?_ scenarioA_eval ⟨0, 6/10, 100, 0, 6, 600, 0⟩ ?_
  · intro r hr
    rcases List.mem_cons.mp hr with rfl | hr
    · norm_num
    · rcases List.mem_cons.mp hr with rfl | hr
      · norm_num
      · exact absurd hr (List.not_mem_nil r)
  · intro r hr
    rcases List.mem_cons.mp hr with rfl | hr
    · norm_num
    · rcases List.mem_cons.mp hr with rfl | hr
      · norm_num
      · exact absurd hr (List.not_mem_nil r)
  · simp [scenarioA]
  · show (⟨0, 6/10, 100, 0, 6, 600, 0⟩ : SymbolRec) ∈ scenarioA_out
    simp [scenarioA_out]

/-- C10: the allocation writes only weight, buy_quantity and order_value:
the multiset of (symbol, buy_price, current_quantity, extra data) projections
of the output equals that of the input. -/
theorem C10_frame (symbols : List SymbolRec) (invest fee : ℚ) (out : List SymbolRec)
    (h : calculate_orders symbols invest fee = some out) :
    List.Perm
      (out.map (fun r => (r.symbol, r.buy_price, r.current_quantity, r.extra)))
      (symbols.map (fun r => (r.symbol, r.buy_price, r.current_quantity, r.extra))) := by
  unfold calculate_orders at h
  cases hpre : prepare symbols invest fee with
  | none => rw [hpre] at h; exact absurd h (by simp)
  | some sd =>
    rw [hpre] at h
    obtain ⟨out1, hset, rfl⟩ := Option.map_eq_some'.mp h
    rw [settle_eq_settleI] at hset
    obtain ⟨pr, hI, hfst⟩ := Option.map_eq_some'.mp hset
    obtain ⟨out0, tr⟩ := pr
    have hout : out0 = out1 := hfst
    subst hout
    have hm1 : out0.map (fun r => (r.symbol, r.buy_price, r.current_quantity, r.extra)) =
        sd.1.map (fun r => (r.symbol, r.buy_price, r.current_quantity, r.extra)) :=
      settleI_map (fun r => (r.symbol, r.buy_price, r.current_quantity, r.extra))
        (fun _ _ _ => rfl) fee (heapSort sd.1) sd.2 sd.1 out0 tr hI
    have hm2 : sd.1.map (fun r => (r.symbol, r.buy_price, r.current_quantity, r.extra)) =
        symbols.map (fun r => (r.symbol, r.buy_price, r.current_quantity, r.extra)) := by
      rw [prepare_fst symbols invest fee sd hpre, List.map_map]
      rfl
    have := (List.perm_insertionSort symbolLe out0).map
      (fun r => (r.symbol, r.buy_price, r.current_quantity, r.extra))
    rw [hm1, hm2] at this
    exact this

/-- C10 witness: the frame property on the specification scenario. -/
theorem C10_witness :
    List.Perm
      (scenarioA_out.map (fun r => (r.symbol, r.buy_price, r.current_quantity, r.extra)))
      (scenarioA.map (fun r => (r.symbol, r.buy_price, r.current_quantity, r.extra))) :=
  C10_frame scenarioA 1000 0 scenarioA_out scenarioA_eval
